import Mathlib

/-!
Verification development for the `inline-json` crate (`src/lib.rs`): a shallow
embedding of the `json!` proc-macro compiler and proofs of its specified
properties.  The macro turns a JSON-like token tree into builder code against a
caller-supplied container type.
-/

namespace InlineJson

/-- Bracket kind of a proc-macro group (mirrors `proc_macro::Delimiter`). -/
inductive Delim where
  | brace
  | bracket
  | parenthesis
  | none
  deriving DecidableEq

/-- A proc-macro token tree (mirrors `proc_macro::TokenTree`): leaf identifiers,
literals and punctuation characters, or an opaque `group` of nested tokens
tagged with its bracket kind.  A `TokenStream` is a `List TokenTree`. -/
inductive TokenTree where
  | ident (s : String)
  | lit (s : String)
  | punct (c : Char)
  | group (d : Delim) (ts : List TokenTree)

/-- `is_not_punct` from `src/lib.rs` (lines 83-91): the predicate handed to
`take_while`.  It is `false` exactly on a leaf punctuation token whose
character equals `ch`, and `true` on every other token - in particular on
every `group`, whatever that group contains. -/
def is_not_punct (ch : Char) : TokenTree → Bool
  | .punct c => c != ch
  | _ => true

/-- The source's iterator consumption pattern
`iter.by_ref().take_while(p).collect()`: the collected prefix paired with what
remains in the iterator afterwards.  Rust's `take_while` also consumes (and
discards) the first token that fails `p` - here, the separator itself. -/
def take_while_consume (p : TokenTree → Bool) : List TokenTree → List TokenTree × List TokenTree
  | [] => ([], [])
  | t :: ts =>
    if p t then
      (t :: (take_while_consume p ts).1, (take_while_consume p ts).2)
    else ([], ts)

theorem take_while_consume_cons_pos (p : TokenTree → Bool) (t : TokenTree)
    (ts : List TokenTree) (h : p t = true) :
    take_while_consume p (t :: ts)
      = (t :: (take_while_consume p ts).1, (take_while_consume p ts).2) := by
  simp [take_while_consume, h]

theorem take_while_consume_cons_neg (p : TokenTree → Bool) (t : TokenTree)
    (ts : List TokenTree) (h : p t = false) :
    take_while_consume p (t :: ts) = ([], ts) := by
  simp [take_while_consume, h]

mutual

/-- Size of one token tree (counting leaves and group nodes), used as the
termination measure of the compiler. -/
def sizeTT : TokenTree → Nat
  | .ident _ => 1
  | .lit _ => 1
  | .punct _ => 1
  | .group _ ts => 1 + sizeL ts

/-- Size of a token stream. -/
def sizeL : List TokenTree → Nat
  | [] => 0
  | t :: ts => sizeTT t + sizeL ts

end

theorem sizeTT_pos (t : TokenTree) : 1 ≤ sizeTT t := by
  cases t <;> simp [sizeTT]

theorem take_while_consume_sizeL (p : TokenTree → Bool) :
    ∀ ts : List TokenTree,
      sizeL (take_while_consume p ts).1 + sizeL (take_while_consume p ts).2 ≤ sizeL ts := by
  intro ts
  induction ts with
  | nil => simp [take_while_consume, sizeL]
  | cons t ts ih =>
    cases hp : p t with
    | true =>
      rw [take_while_consume_cons_pos p t ts hp]
      simp only [sizeL]
      omega
    | false =>
      rw [take_while_consume_cons_neg p t ts hp]
      simp only [sizeL]
      have := sizeTT_pos t
      omega

theorem take_while_consume_sizeL_snd_lt (p : TokenTree → Bool) :
    ∀ ts : List TokenTree, ts ≠ [] → sizeL (take_while_consume p ts).2 < sizeL ts := by
  intro ts h
  cases ts with
  | nil => exact absurd rfl h
  | cons t ts =>
    cases hp : p t with
    | true =>
      rw [take_while_consume_cons_pos p t ts hp]
      simp only [sizeL]
      have := take_while_consume_sizeL p ts
      have := sizeTT_pos t
      omega
    | false =>
      rw [take_while_consume_cons_neg p t ts hp]
      simp only [sizeL]
      have := sizeTT_pos t
      omega

theorem take_while_consume_length (p : TokenTree → Bool) :
    ∀ ts : List TokenTree,
      (take_while_consume p ts).1.length + (take_while_consume p ts).2.length ≤ ts.length := by
  intro ts
  induction ts with
  | nil => simp [take_while_consume]
  | cons t ts ih =>
    cases hp : p t with
    | true =>
      rw [take_while_consume_cons_pos p t ts hp]
      simp only [List.length_cons]
      omega
    | false =>
      rw [take_while_consume_cons_neg p t ts hp]
      simp only [List.length_nil, List.length_cons]
      omega

theorem take_while_consume_length_snd_lt (p : TokenTree → Bool) :
    ∀ ts : List TokenTree, ts ≠ [] → (take_while_consume p ts).2.length < ts.length := by
  intro ts h
  cases ts with
  | nil => exact absurd rfl h
  | cons t ts =>
    cases hp : p t with
    | true =>
      rw [take_while_consume_cons_pos p t ts hp]
      simp only [List.length_cons]
      have := take_while_consume_length p ts
      omega
    | false =>
      rw [take_while_consume_cons_neg p t ts hp]
      simp only [List.length_cons]
      omega

/-- Modelled from the spec: the host expression grammar (`syn::Expr`, external
to this repository) keeps a parsed expression as its underlying token stream. -/
structure SynExpr where
  toks : List TokenTree

/-- Modelled from the spec: the host type grammar (`syn::Type`, external to
this repository). -/
structure SynType where
  toks : List TokenTree

/-- Modelled from the spec: `parse_macro_input!(ts as Expr)` - parsing a token
stream as one freestanding host expression, which is external to this
repository.  Exactly two facts of the host grammar are modelled, both relied
on by the spec's error-handling section: an empty stream is not an expression,
and a single freestanding expression never spans a top-level entry-separator
comma (`syn` stops an `Expr` at a top-level `,` and `parse_macro_input!`
demands that the whole input be consumed).  Every other nonempty stream is
taken to parse, and is kept opaque. -/
def parseExpr (ts : List TokenTree) : Option SynExpr :=
  if ts.isEmpty then Option.none
  else if ts.any (fun t => !is_not_punct ',' t) then Option.none
  else some ⟨ts⟩

/-- Modelled from the spec: `parse_macro_input!(ty)` as a `syn::Type` (host
grammar, external to this repository); an empty stream is not a type, any
nonempty stream is kept opaque. -/
def parseType (ts : List TokenTree) : Option SynType :=
  if ts.isEmpty then Option.none else some ⟨ts⟩

/-- Whether the stream begins with a brace- or bracket-delimited group, the
two shapes `json_impl` classifies as object and array literals. -/
def leadsObjectOrArray : List TokenTree → Bool
  | .group .brace _ :: _ => true
  | .group .bracket _ :: _ => true
  | _ => false

/-- A single token that is a brace- or bracket-delimited group. -/
def isContainerGroup : TokenTree → Bool
  | .group .brace _ => true
  | .group .bracket _ => true
  | _ => false

theorem leadsObjectOrArray_cons (t : TokenTree) (xs : List TokenTree) :
    leadsObjectOrArray (t :: xs) = isContainerGroup t := by
  cases t with
  | ident s => rfl
  | lit s => rfl
  | punct c => rfl
  | group d inner => cases d <;> rfl

/-- What one recursive `json_impl(ty, Box::new(iter.by_ref().take_while(is_not_punct(','))))`
call (lines 52 and 66 of `src/lib.rs`) consumes from the parent iterator,
paired with what it leaves behind.  The `take_while` adapter is lazy: when the
value starts with a brace- or bracket-delimited group, `json_impl` only peeks
that one group token and returns (lines 44-74), dropping the `take_while`
undrained, so the separator after the group (and anything else in the segment)
is left in the parent iterator.  In every other case the scalar branch's
`iter.collect()` (line 78) drains the whole segment through the separator,
which the `take_while` consumes and discards. -/
def seg_consume : List TokenTree → List TokenTree × List TokenTree
  | .group .brace inner :: rest => ([.group .brace inner], rest)
  | .group .bracket inner :: rest => ([.group .bracket inner], rest)
  | ts => take_while_consume (is_not_punct ',') ts

theorem seg_consume_brace (inner rest : List TokenTree) :
    seg_consume (.group .brace inner :: rest) = ([.group .brace inner], rest) := rfl

theorem seg_consume_bracket (inner rest : List TokenTree) :
    seg_consume (.group .bracket inner :: rest) = ([.group .bracket inner], rest) := rfl

theorem seg_consume_scalar (ts : List TokenTree) (h : leadsObjectOrArray ts = false) :
    seg_consume ts = take_while_consume (is_not_punct ',') ts := by
  cases ts with
  | nil => rfl
  | cons t rest =>
    cases t with
    | ident s => rfl
    | lit s => rfl
    | punct c => rfl
    | group d inner =>
      cases d with
      | brace => exact Bool.noConfusion h
      | bracket => exact Bool.noConfusion h
      | parenthesis => rfl
      | none => rfl

theorem seg_consume_cases (ts : List TokenTree) :
    (∃ t rest, ts = t :: rest ∧ isContainerGroup t = true ∧ seg_consume ts = ([t], rest))
    ∨ (leadsObjectOrArray ts = false
        ∧ seg_consume ts = take_while_consume (is_not_punct ',') ts) := by
  cases ts with
  | nil => exact Or.inr ⟨rfl, rfl⟩
  | cons t rest =>
    cases t with
    | ident s => exact Or.inr ⟨rfl, rfl⟩
    | lit s => exact Or.inr ⟨rfl, rfl⟩
    | punct c => exact Or.inr ⟨rfl, rfl⟩
    | group d inner =>
      cases d with
      | brace => exact Or.inl ⟨_, rest, rfl, rfl, rfl⟩
      | bracket => exact Or.inl ⟨_, rest, rfl, rfl, rfl⟩
      | parenthesis => exact Or.inr ⟨rfl, rfl⟩
      | none => exact Or.inr ⟨rfl, rfl⟩

theorem seg_consume_sizeL_fst (ts : List TokenTree) :
    sizeL (seg_consume ts).1 ≤ sizeL ts := by
  rcases seg_consume_cases ts with ⟨t, rest, hts, _, hseg⟩ | ⟨_, hseg⟩
  · subst hts
    rw [hseg]
    simp only [sizeL]
    omega
  · rw [hseg]
    have := take_while_consume_sizeL (is_not_punct ',') ts
    omega

theorem seg_consume_sizeL_snd (ts : List TokenTree) :
    sizeL (seg_consume ts).2 ≤ sizeL ts := by
  rcases seg_consume_cases ts with ⟨t, rest, hts, _, hseg⟩ | ⟨_, hseg⟩
  · subst hts
    rw [hseg]
    simp only [sizeL]
    have := sizeTT_pos t
    omega
  · rw [hseg]
    have := take_while_consume_sizeL (is_not_punct ',') ts
    omega

theorem seg_consume_sizeL_snd_lt (ts : List TokenTree) (h : ts ≠ []) :
    sizeL (seg_consume ts).2 < sizeL ts := by
  rcases seg_consume_cases ts with ⟨t, rest, hts, _, hseg⟩ | ⟨_, hseg⟩
  · subst hts
    rw [hseg]
    simp only [sizeL]
    have := sizeTT_pos t
    omega
  · rw [hseg]
    exact take_while_consume_sizeL_snd_lt (is_not_punct ',') ts h

theorem dec_obj_val (t : TokenTree) (rest : List TokenTree) :
    2 * sizeL (seg_consume (take_while_consume (is_not_punct ':') (t :: rest)).2).1
      < 2 * sizeL (t :: rest) + 1 := by
  have h1 := take_while_consume_sizeL_snd_lt (is_not_punct ':') (t :: rest) (by simp)
  have h2 := seg_consume_sizeL_fst (take_while_consume (is_not_punct ':') (t :: rest)).2
  omega

theorem dec_obj_rest (t : TokenTree) (rest : List TokenTree) :
    2 * sizeL (seg_consume (take_while_consume (is_not_punct ':') (t :: rest)).2).2 + 1
      < 2 * sizeL (t :: rest) + 1 := by
  have h1 := take_while_consume_sizeL_snd_lt (is_not_punct ':') (t :: rest) (by simp)
  have h2 := seg_consume_sizeL_snd (take_while_consume (is_not_punct ':') (t :: rest)).2
  omega

theorem dec_arr_val (t : TokenTree) (rest : List TokenTree) :
    2 * sizeL (seg_consume (t :: rest)).1 < 2 * sizeL (t :: rest) + 1 := by
  have h1 := seg_consume_sizeL_fst (t :: rest)
  omega

theorem dec_arr_rest (t : TokenTree) (rest : List TokenTree) :
    2 * sizeL (seg_consume (t :: rest)).2 + 1 < 2 * sizeL (t :: rest) + 1 := by
  have h1 := seg_consume_sizeL_snd_lt (t :: rest) (by simp)
  omega

/-- The emitted code fragment, abstracting the three fixed `quote!` templates
of `json_impl`:
* `intoConv ty e` is the fragment `<_ as Into<ty>>::into(e)`;
* `objectBlock ty entries` is the block that binds `object = <ty>::empty_object()`,
  emits one `<_ as cc_traits::MapInsert<_>>::insert(&mut object, (key).to_string(), value)`
  statement per entry, in order, and ends with `object.into()`;
* `arrayBlock ty elems` is the block that binds `array = <ty>::empty_array()`,
  emits one `<_ as cc_traits::PushBack>::push_back(&mut array, value)`
  statement per element, in order, and ends with `array.into()`. -/
inductive Frag where
  | intoConv (ty : SynType) (e : SynExpr)
  | objectBlock (ty : SynType) (entries : List (SynExpr × Frag))
  | arrayBlock (ty : SynType) (elems : List Frag)

mutual

/-- `json_impl` from `src/lib.rs` lines 42-81.  Peeks at the first token: a
brace-delimited group compiles as an object, a bracket-delimited group as an
array, anything else (including parenthesis- or none-delimited groups) falls
through to the scalar conversion of the whole stream.  A failing
`parse_macro_input!` anywhere embeds a `compile_error!` in the expansion, so
the whole invocation fails to compile; this is modelled as `Option.none`. -/
def json_impl (ty : SynType) (ts : List TokenTree) : Option Frag :=
  match ts with
  | .group .brace inner :: _ => (objEntries ty inner).map (Frag.objectBlock ty)
  | .group .bracket inner :: _ => (arrElems ty inner).map (Frag.arrayBlock ty)
  | _ => (parseExpr ts).map (Frag.intoConv ty)
termination_by 2 * sizeL ts
decreasing_by
  all_goals simp only [sizeL, sizeTT]; omega

/-- The `while iter.peek().is_some()` loop of the `Delimiter::Brace` branch
(lines 47-54): repeatedly take tokens up to (and consuming) the next `:` as
the key (the `collect` drains that `take_while` fully), parse it as an
expression, then hand the lazy comma-`take_while` to the recursive `json_impl`
for the value.  What that call actually consumes is `seg_consume`: a leading
brace/bracket group value leaves the following separator unconsumed. -/
def objEntries (ty : SynType) (ts : List TokenTree) : Option (List (SynExpr × Frag)) :=
  match ts with
  | [] => some []
  | t :: rest =>
    match parseExpr (take_while_consume (is_not_punct ':') (t :: rest)).1 with
    | Option.none => Option.none
    | some k =>
      match json_impl ty
          (seg_consume (take_while_consume (is_not_punct ':') (t :: rest)).2).1 with
      | Option.none => Option.none
      | some v =>
        match objEntries ty
            (seg_consume (take_while_consume (is_not_punct ':') (t :: rest)).2).2 with
        | Option.none => Option.none
        | some es => some ((k, v) :: es)
termination_by 2 * sizeL ts + 1
decreasing_by
  · exact dec_obj_val _ _
  · exact dec_obj_rest _ _

/-- The `while iter.peek().is_some()` loop of the `Delimiter::Bracket` branch
(lines 63-67): repeatedly hand the lazy comma-`take_while` to the recursive
`json_impl` as one element.  What that call actually consumes is
`seg_consume`: a leading brace/bracket group element leaves the following
separator unconsumed in the parent iterator. -/
def arrElems (ty : SynType) (ts : List TokenTree) : Option (List Frag) :=
  match ts with
  | [] => some []
  | t :: rest =>
    match json_impl ty (seg_consume (t :: rest)).1 with
    | Option.none => Option.none
    | some v =>
      match arrElems ty (seg_consume (t :: rest)).2 with
      | Option.none => Option.none
      | some vs => some (v :: vs)
termination_by 2 * sizeL ts + 1
decreasing_by
  · exact dec_arr_val _ _
  · exact dec_arr_rest _ _

end

/-- The `json` entry point (lines 34-40): tokens up to (and consuming) the
first top-level `,` are parsed as the target type, the remainder is handed to
`json_impl`. -/
def json (ts : List TokenTree) : Option Frag :=
  match parseType (take_while_consume (is_not_punct ',') ts).1 with
  | Option.none => Option.none
  | some ty => json_impl ty (take_while_consume (is_not_punct ',') ts).2

/-- The delimiter-aware splitter of the spec, as realised by the source's
consumption pattern `while iter.peek().is_some()` around
`take_while(is_not_punct(sep))`: cut the stream at every top-level occurrence
of the separator character.  An empty stream yields no segments at all. -/
def split (sep : Char) (ts : List TokenTree) : List (List TokenTree) :=
  match ts with
  | [] => []
  | t :: rest =>
    (take_while_consume (is_not_punct sep) (t :: rest)).1
      :: split sep (take_while_consume (is_not_punct sep) (t :: rest)).2
termination_by ts.length
decreasing_by
  exact take_while_consume_length_snd_lt (is_not_punct sep) _ (by simp)

theorem is_not_punct_self (ch : Char) : is_not_punct ch (.punct ch) = false := by
  simp [is_not_punct]

theorem eq_punct_of_is_not_punct_eq_false (ch : Char) (t : TokenTree)
    (h : is_not_punct ch t = false) : t = .punct ch := by
  cases t with
  | punct c =>
    simp only [is_not_punct, bne_eq_false_iff_eq] at h
    rw [h]
  | ident s => simp [is_not_punct] at h
  | lit s => simp [is_not_punct] at h
  | group d ts => simp [is_not_punct] at h

theorem take_while_consume_of_all (p : TokenTree → Bool) (ts : List TokenTree)
    (h : ts.all p = true) : take_while_consume p ts = (ts, []) := by
  induction ts with
  | nil => rfl
  | cons t ts ih =>
    simp only [List.all_cons, Bool.and_eq_true] at h
    rw [take_while_consume_cons_pos p t ts h.1, ih h.2]

theorem take_while_consume_append_all (p : TokenTree → Bool) (a rest : List TokenTree)
    (h : a.all p = true) :
    take_while_consume p (a ++ rest)
      = (a ++ (take_while_consume p rest).1, (take_while_consume p rest).2) := by
  induction a with
  | nil => simp
  | cons t a ih =>
    simp only [List.all_cons, Bool.and_eq_true] at h
    rw [List.cons_append, take_while_consume_cons_pos p t (a ++ rest) h.1, ih h.2]
    simp

theorem take_while_consume_sep (p : TokenTree → Bool) (a : List TokenTree)
    (c : TokenTree) (r : List TokenTree) (ha : a.all p = true) (hc : p c = false) :
    take_while_consume p (a ++ c :: r) = (a, r) := by
  rw [take_while_consume_append_all p a (c :: r) ha,
    take_while_consume_cons_neg p c r hc]
  simp

theorem take_while_consume_fst_all (p : TokenTree → Bool) (ts : List TokenTree) :
    (take_while_consume p ts).1.all p = true := by
  induction ts with
  | nil => rfl
  | cons t ts ih =>
    cases hp : p t with
    | true =>
      rw [take_while_consume_cons_pos p t ts hp]
      simp [hp, ih]
    | false =>
      rw [take_while_consume_cons_neg p t ts hp]
      rfl

theorem take_while_consume_cases (p : TokenTree → Bool) (ts : List TokenTree) :
    (ts.all p = true ∧ take_while_consume p ts = (ts, []))
      ∨ ∃ a c r, a.all p = true ∧ p c = false ∧ ts = a ++ c :: r
          ∧ take_while_consume p ts = (a, r) := by
  induction ts with
  | nil => exact Or.inl ⟨rfl, rfl⟩
  | cons t ts ih =>
    cases hp : p t with
    | true =>
      rcases ih with ⟨hall, heq⟩ | ⟨a, c, r, hall, hc, hts, heq⟩
      · refine Or.inl ⟨by simp [hp, hall], ?_⟩
        rw [take_while_consume_cons_pos p t ts hp, heq]
      · refine Or.inr ⟨t :: a, c, r, by simp [hp, hall], hc, by rw [hts]; rfl, ?_⟩
        rw [take_while_consume_cons_pos p t ts hp, heq]
    | false =>
      exact Or.inr ⟨[], t, ts, rfl, hp, rfl, take_while_consume_cons_neg p t ts hp⟩

theorem parseExpr_nil : parseExpr [] = Option.none := rfl

theorem parseExpr_none_of_comma (ts : List TokenTree) (h : (TokenTree.punct ',') ∈ ts) :
    parseExpr ts = Option.none := by
  have hne : ts.isEmpty = false := by
    cases ts with
    | nil => cases h
    | cons t ts => rfl
  have hany : ts.any (fun t => !is_not_punct ',' t) = true := by
    rw [List.any_eq_true]
    exact ⟨_, h, by simp [is_not_punct]⟩
  simp [parseExpr, hne, hany]

theorem parseExpr_some (ts : List TokenTree) (hne : ts ≠ [])
    (hall : ts.all (is_not_punct ',') = true) : parseExpr ts = some ⟨ts⟩ := by
  have hne' : ts.isEmpty = false := by
    cases ts with
    | nil => exact absurd rfl hne
    | cons t ts => rfl
  have hany : ts.any (fun t => !is_not_punct ',' t) = false := by
    rw [List.any_eq_false]
    intro t ht
    have := List.all_eq_true.mp hall t ht
    simp [this]
  simp [parseExpr, hne', hany]

theorem json_impl_nil (ty : SynType) : json_impl ty [] = Option.none := by
  simp [json_impl, parseExpr_nil]

theorem objEntries_step_none_key (ty : SynType) (ts : List TokenTree) (hne : ts ≠ [])
    (h : parseExpr (take_while_consume (is_not_punct ':') ts).1 = Option.none) :
    objEntries ty ts = Option.none := by
  cases ts with
  | nil => exact absurd rfl hne
  | cons t rest =>
    simp only [objEntries]
    rw [h]

theorem objEntries_step_none_val (ty : SynType) (ts : List TokenTree) (k : SynExpr)
    (hne : ts ≠ [])
    (hk : parseExpr (take_while_consume (is_not_punct ':') ts).1 = some k)
    (hv : json_impl ty
        (seg_consume (take_while_consume (is_not_punct ':') ts).2).1 = Option.none) :
    objEntries ty ts = Option.none := by
  cases ts with
  | nil => exact absurd rfl hne
  | cons t rest =>
    simp only [objEntries]
    rw [hk, hv]

theorem objEntries_step_some (ty : SynType) (ts : List TokenTree) (k : SynExpr) (f : Frag)
    (hne : ts ≠ [])
    (hk : parseExpr (take_while_consume (is_not_punct ':') ts).1 = some k)
    (hv : json_impl ty
        (seg_consume (take_while_consume (is_not_punct ':') ts).2).1 = some f) :
    objEntries ty ts
      = (objEntries ty (seg_consume (take_while_consume (is_not_punct ':') ts).2).2).map
          (fun es => (k, f) :: es) := by
  cases ts with
  | nil => exact absurd rfl hne
  | cons t rest =>
    simp only [objEntries]
    rw [hk, hv]
    cases objEntries ty
        (seg_consume (take_while_consume (is_not_punct ':') (t :: rest)).2).2 <;> rfl

theorem arrElems_step_none (ty : SynType) (ts : List TokenTree) (hne : ts ≠ [])
    (hv : json_impl ty (seg_consume ts).1 = Option.none) :
    arrElems ty ts = Option.none := by
  cases ts with
  | nil => exact absurd rfl hne
  | cons t rest =>
    simp only [arrElems]
    rw [hv]

theorem arrElems_step_some (ty : SynType) (ts : List TokenTree) (f : Frag) (hne : ts ≠ [])
    (hv : json_impl ty (seg_consume ts).1 = some f) :
    arrElems ty ts
      = (arrElems ty (seg_consume ts).2).map (fun vs => f :: vs) := by
  cases ts with
  | nil => exact absurd rfl hne
  | cons t rest =>
    simp only [arrElems]
    rw [hv]
    cases arrElems ty (seg_consume (t :: rest)).2 <;> rfl

/-- Join a list of token segments with the entry separator `,` between
consecutive segments (no trailing separator). -/
def sepJoin : List (List TokenTree) → List TokenTree
  | [] => []
  | [s] => s
  | s :: segs => s ++ .punct ',' :: sepJoin segs

/-- The token stream of one object entry `key : value`. -/
def encodeObjEntry (e : List TokenTree × List TokenTree) : List TokenTree :=
  e.1 ++ .punct ':' :: e.2

/-- The inner token stream of an object literal with the given entries. -/
def encodeObj (es : List (List TokenTree × List TokenTree)) : List TokenTree :=
  sepJoin (es.map encodeObjEntry)

/-- Number of insert-keyed-entry calls the fragment itself performs (its
nested sub-fragments aside). -/
def insertCalls : Frag → Nat
  | .objectBlock _ es => es.length
  | _ => 0

/-- Number of append-ordered-entry (`push_back`) calls the fragment itself
performs (its nested sub-fragments aside). -/
def pushCalls : Frag → Nat
  | .arrayBlock _ vs => vs.length
  | _ => 0

/-- A well-formed object key segment: nonempty, with no top-level `:` (so the
key/value split cuts exactly after it) and no top-level `,` (so it parses as
one freestanding expression). -/
def WFKey (k : List TokenTree) : Prop :=
  k ≠ [] ∧ k.all (is_not_punct ':') = true ∧ k.all (is_not_punct ',') = true

theorem sepJoin_nil : sepJoin [] = [] := rfl

theorem sepJoin_single (s : List TokenTree) : sepJoin [s] = s := rfl

theorem sepJoin_cons (s s2 : List TokenTree) (segs : List (List TokenTree)) :
    sepJoin (s :: s2 :: segs) = s ++ .punct ',' :: sepJoin (s2 :: segs) := rfl

theorem objEntries_nil (ty : SynType) : objEntries ty [] = some [] := by
  simp [objEntries]

theorem arrElems_nil (ty : SynType) : arrElems ty [] = some [] := by
  simp [arrElems]

/-- A scalar value segment: it does not start with a brace/bracket group (so
the recursive call takes the scalar path and drains its whole segment,
separator included) and contains no top-level `,`. -/
def ScalarValueSeg (v : List TokenTree) : Prop :=
  leadsObjectOrArray v = false ∧ v.all (is_not_punct ',') = true

/-- A nested-literal value segment: exactly one brace- or bracket-delimited
group.  The recursive call consumes just the group and nothing after it, so
such a value is only safe where no separator follows. -/
def NestedValueSeg (v : List TokenTree) : Prop :=
  ∃ t, v = [t] ∧ isContainerGroup t = true

/-- Entry values the loop consumes correctly: every non-final value is a
scalar segment; the final value may also be a single nested literal. -/
def WFObjEntries : List (List TokenTree × List TokenTree) → Prop
  | [] => True
  | [e] => ScalarValueSeg e.2 ∨ NestedValueSeg e.2
  | e :: es => ScalarValueSeg e.2 ∧ WFObjEntries es

/-- Element values the loop consumes correctly: every non-final element is a
scalar segment; the final element may also be a single nested literal. -/
def WFArrElems : List (List TokenTree) → Prop
  | [] => True
  | [v] => ScalarValueSeg v ∨ NestedValueSeg v
  | v :: vs => ScalarValueSeg v ∧ WFArrElems vs

theorem seg_consume_scalar_sep (v rest : List TokenTree) (h : ScalarValueSeg v) :
    seg_consume (v ++ TokenTree.punct ',' :: rest) = (v, rest) := by
  have hl : leadsObjectOrArray (v ++ TokenTree.punct ',' :: rest) = false := by
    cases v with
    | nil => rfl
    | cons t vs =>
      rw [List.cons_append, leadsObjectOrArray_cons]
      have h1 := h.1
      rw [leadsObjectOrArray_cons] at h1
      exact h1
  rw [seg_consume_scalar _ hl]
  exact take_while_consume_sep _ _ _ _ h.2 (is_not_punct_self ',')

theorem seg_consume_scalar_last (v : List TokenTree) (h : ScalarValueSeg v) :
    seg_consume v = (v, []) := by
  rw [seg_consume_scalar v h.1]
  exact take_while_consume_of_all _ _ h.2

theorem seg_consume_nested (v : List TokenTree) (h : NestedValueSeg v) :
    seg_consume v = (v, []) := by
  obtain ⟨t, hv, hct⟩ := h
  subst hv
  cases t with
  | ident s => exact Bool.noConfusion hct
  | lit s => exact Bool.noConfusion hct
  | punct c => exact Bool.noConfusion hct
  | group d inner =>
    cases d with
    | brace => rfl
    | bracket => rfl
    | parenthesis => exact Bool.noConfusion hct
    | none => exact Bool.noConfusion hct

theorem objEntries_encode (ty : SynType)
    (es : List (List TokenTree × List TokenTree)) (fs : List Frag)
    (hk : ∀ e ∈ es, WFKey e.1)
    (hwf : WFObjEntries es)
    (hc : List.Forall₂ (fun e f => json_impl ty e.2 = some f) es fs) :
    objEntries ty (encodeObj es)
      = some (List.zipWith (fun e f => ((⟨e.1⟩ : SynExpr), f)) es fs) := by
  induction hc with
  | nil => exact objEntries_nil ty
  | @cons e f es' fs' he hrest ih =>
    obtain ⟨hne, hkcolon, hkcomma⟩ := hk e (List.mem_cons_self e es')
    have hkparse : parseExpr e.1 = some ⟨e.1⟩ := parseExpr_some e.1 hne hkcomma
    cases hrest with
    | nil =>
      have hseg : seg_consume e.2 = (e.2, []) := by
        rcases hwf with hsc | hnest
        · exact seg_consume_scalar_last e.2 hsc
        · exact seg_consume_nested e.2 hnest
      have hts : encodeObj [e] = e.1 ++ .punct ':' :: e.2 := rfl
      have htne : e.1 ++ TokenTree.punct ':' :: e.2 ≠ [] := by simp
      have h1 : take_while_consume (is_not_punct ':') (e.1 ++ .punct ':' :: e.2)
          = (e.1, e.2) :=
        take_while_consume_sep _ _ _ _ hkcolon (is_not_punct_self ':')
      rw [hts, objEntries_step_some ty _ ⟨e.1⟩ f htne (by rw [h1]; exact hkparse)
        (by rw [h1]; simp only; rw [hseg]; exact he)]
      rw [h1]
      simp only [hseg, objEntries_nil]
      rfl
    | @cons e2 f2 es'' fs'' he2 hrest2 =>
      obtain ⟨hsc, hwf'⟩ := hwf
      have hts : encodeObj (e :: e2 :: es'')
          = e.1 ++ .punct ':' :: (e.2 ++ .punct ',' :: encodeObj (e2 :: es'')) := by
        show sepJoin (encodeObjEntry e :: encodeObjEntry e2 :: List.map encodeObjEntry es'')
          = _
        rw [sepJoin_cons]
        show (e.1 ++ .punct ':' :: e.2) ++ .punct ',' :: encodeObj (e2 :: es'') = _
        simp
      have htne : e.1 ++ TokenTree.punct ':' :: (e.2 ++ .punct ',' :: encodeObj (e2 :: es''))
          ≠ [] := by simp
      have h1 : take_while_consume (is_not_punct ':')
          (e.1 ++ .punct ':' :: (e.2 ++ .punct ',' :: encodeObj (e2 :: es'')))
          = (e.1, e.2 ++ .punct ',' :: encodeObj (e2 :: es'')) :=
        take_while_consume_sep _ _ _ _ hkcolon (is_not_punct_self ':')
      have hseg : seg_consume (e.2 ++ .punct ',' :: encodeObj (e2 :: es''))
          = (e.2, encodeObj (e2 :: es'')) :=
        seg_consume_scalar_sep e.2 _ hsc
      rw [hts, objEntries_step_some ty _ ⟨e.1⟩ f htne (by rw [h1]; exact hkparse)
        (by rw [h1]; simp only; rw [hseg]; exact he)]
      rw [h1]
      simp only [hseg]
      have ihx := ih (fun x hx => hk x (List.mem_cons_of_mem e hx)) hwf'
      rw [ihx]
      rfl

theorem arrElems_encode (ty : SynType) (vs : List (List TokenTree)) (fs : List Frag)
    (hwf : WFArrElems vs)
    (hc : List.Forall₂ (fun v f => json_impl ty v = some f) vs fs) :
    arrElems ty (sepJoin vs) = some fs := by
  induction hc with
  | nil => exact arrElems_nil ty
  | @cons v f vs' fs' he hrest ih =>
    have hvne : v ≠ [] := by
      intro h
      rw [h, json_impl_nil] at he
      cases he
    cases hrest with
    | nil =>
      have hseg : seg_consume v = (v, []) := by
        rcases hwf with hsc | hnest
        · exact seg_consume_scalar_last v hsc
        · exact seg_consume_nested v hnest
      rw [sepJoin_single]
      rw [arrElems_step_some ty v f hvne (by rw [hseg]; exact he)]
      rw [hseg]
      simp only [arrElems_nil]
      rfl
    | @cons v2 f2 vs'' fs'' he2 hrest2 =>
      obtain ⟨hsc, hwf'⟩ := hwf
      have hts : sepJoin (v :: v2 :: vs'') = v ++ .punct ',' :: sepJoin (v2 :: vs'') :=
        sepJoin_cons v v2 vs''
      have hseg : seg_consume (v ++ .punct ',' :: sepJoin (v2 :: vs''))
          = (v, sepJoin (v2 :: vs'')) :=
        seg_consume_scalar_sep v _ hsc
      have htne : v ++ TokenTree.punct ',' :: sepJoin (v2 :: vs'') ≠ [] := by simp
      rw [hts, arrElems_step_some ty _ f htne (by rw [hseg]; exact he)]
      rw [hseg]
      simp only
      have ihx := ih hwf'
      rw [ihx]
      rfl

/-- The fragment is an object construction (its own operations are
`empty_object`, `insert` and the final `into`). -/
def buildsObject : Frag → Bool
  | .objectBlock _ _ => true
  | _ => false

/-- The fragment is an array construction (its own operations are
`empty_array`, `push_back` and the final `into`). -/
def buildsArray : Frag → Bool
  | .arrayBlock _ _ => true
  | _ => false

/-- Every construction and conversion in the fragment, at every nesting
depth, targets the type `ty`. -/
inductive Targets (ty : SynType) : Frag → Prop where
  | intoConv (e : SynExpr) : Targets ty (.intoConv ty e)
  | objectBlock (entries : List (SynExpr × Frag))
      (h : ∀ p ∈ entries, Targets ty p.2) : Targets ty (.objectBlock ty entries)
  | arrayBlock (elems : List Frag)
      (h : ∀ f ∈ elems, Targets ty f) : Targets ty (.arrayBlock ty elems)

/-- A sample target-type descriptor used by the concrete witnesses. -/
def tyT : SynType := ⟨[.ident "T"]⟩

theorem objEntries_cons_inv (ty : SynType) (ts : List TokenTree)
    (es : List (SynExpr × Frag)) (hne : ts ≠ []) (h : objEntries ty ts = some es) :
    ∃ k v es',
      parseExpr (take_while_consume (is_not_punct ':') ts).1 = some k
      ∧ json_impl ty (seg_consume (take_while_consume (is_not_punct ':') ts).2).1 = some v
      ∧ objEntries ty (seg_consume (take_while_consume (is_not_punct ':') ts).2).2 = some es'
      ∧ es = (k, v) :: es' := by
  cases ts with
  | nil => exact absurd rfl hne
  | cons t rest =>
    simp only [objEntries] at h
    cases hk : parseExpr (take_while_consume (is_not_punct ':') (t :: rest)).1 with
    | none => rw [hk] at h; cases h
    | some k =>
      rw [hk] at h
      cases hv : json_impl ty
          (seg_consume (take_while_consume (is_not_punct ':') (t :: rest)).2).1 with
      | none => rw [hv] at h; cases h
      | some v =>
        rw [hv] at h
        cases he : objEntries ty
            (seg_consume (take_while_consume (is_not_punct ':') (t :: rest)).2).2 with
        | none => rw [he] at h; cases h
        | some es' =>
          rw [he] at h
          cases h
          exact ⟨k, v, es', rfl, rfl, rfl, rfl⟩

theorem arrElems_cons_inv (ty : SynType) (ts : List TokenTree)
    (vs : List Frag) (hne : ts ≠ []) (h : arrElems ty ts = some vs) :
    ∃ v vs',
      json_impl ty (seg_consume ts).1 = some v
      ∧ arrElems ty (seg_consume ts).2 = some vs'
      ∧ vs = v :: vs' := by
  cases ts with
  | nil => exact absurd rfl hne
  | cons t rest =>
    simp only [arrElems] at h
    cases hv : json_impl ty (seg_consume (t :: rest)).1 with
    | none => rw [hv] at h; cases h
    | some v =>
      rw [hv] at h
      cases he : arrElems ty (seg_consume (t :: rest)).2 with
      | none => rw [he] at h; cases h
      | some vs' =>
        rw [he] at h
        cases h
        exact ⟨v, vs', rfl, rfl, rfl⟩

/-- C1 (amended): the original claim fails on the code - a brace/bracket
group value in a non-final entry leaves its trailing separator unconsumed
(the recursive call only peeks the group and returns), so the next key
picks up the separator and the expansion fails to compile
(`claim_c1_counterexample`).  Amended: for every well-formed object literal
with N entries whose non-final entry values are scalar expression segments
(the final entry's value may also be a single nested brace/bracket literal),
the emitted fragment is the object construction that performs exactly N
insert-keyed-entry calls, one per entry in original source order, with the
keys as written (stringified at use by the emitted `.to_string()`), and zero
insert calls for N = 0; the fragment first constructs an empty object of the
target type and finally converts it into the target type (the
`Frag.objectBlock` code shape). -/
theorem claim_c1_object_insert_calls (ty : SynType)
    (es : List (List TokenTree × List TokenTree)) (fs : List Frag)
    (hk : ∀ e ∈ es, WFKey e.1)
    (hwf : WFObjEntries es)
    (hc : List.Forall₂ (fun e f => json_impl ty e.2 = some f) es fs) :
    json_impl ty [.group .brace (encodeObj es)]
      = some (.objectBlock ty (List.zipWith (fun e f => ((⟨e.1⟩ : SynExpr), f)) es fs))
    ∧ insertCalls
        (.objectBlock ty (List.zipWith (fun e f => ((⟨e.1⟩ : SynExpr), f)) es fs))
      = es.length := by
  have h := objEntries_encode ty es fs hk hwf hc
  constructor
  · simp only [json_impl, h]
    rfl
  · simp only [insertCalls, List.length_zipWith]
    have := List.Forall₂.length_eq hc
    omega

/-- C1 counterexample: the two-entry object literal whose source is
`misc a : misc-empty-object , c : 2` (i.e. the JSON literal with a nested
empty object as the first value) satisfies every well-formedness hypothesis
of the original claim - both keys parse, both values are comma-free and both
values compile on their own - yet the compiler rejects the whole literal
instead of emitting two insert calls: the comma after the group value is
never consumed, so the second key becomes `, c` and fails to parse. -/
theorem claim_c1_counterexample :
    (∀ e ∈ ([([TokenTree.lit "a"], [TokenTree.group Delim.brace []]),
             ([TokenTree.lit "c"], [TokenTree.lit "2"])] :
        List (List TokenTree × List TokenTree)),
      WFKey e.1 ∧ e.2.all (is_not_punct ',') = true)
    ∧ List.Forall₂ (fun e f => json_impl tyT e.2 = some f)
        [([TokenTree.lit "a"], [TokenTree.group Delim.brace []]),
         ([TokenTree.lit "c"], [TokenTree.lit "2"])]
        [Frag.objectBlock tyT [], Frag.intoConv tyT ⟨[TokenTree.lit "2"]⟩]
    ∧ json_impl tyT [.group .brace (encodeObj
        [([TokenTree.lit "a"], [TokenTree.group Delim.brace []]),
         ([TokenTree.lit "c"], [TokenTree.lit "2"])])] = Option.none := by
  refine ⟨?_, ?_, ?_⟩
  · intro e he
    simp only [List.mem_cons, List.not_mem_nil, or_false] at he
    rcases he with he | he <;> subst he <;> exact ⟨⟨by simp, rfl, rfl⟩, rfl⟩
  · exact List.Forall₂.cons (by simp [json_impl, objEntries])
      (List.Forall₂.cons (by simp [json_impl, parseExpr, is_not_punct])
        List.Forall₂.nil)
  · simp [json_impl, objEntries, encodeObj, encodeObjEntry, sepJoin, seg_consume,
      take_while_consume, is_not_punct, parseExpr]

theorem claim_c1_witness :
    json_impl tyT [.group .brace (encodeObj [([.lit "a"], [.lit "1"]), ([.lit "b"], [.lit "2"])])]
      = some (.objectBlock tyT
          [(⟨[.lit "a"]⟩, .intoConv tyT ⟨[.lit "1"]⟩),
           (⟨[.lit "b"]⟩, .intoConv tyT ⟨[.lit "2"]⟩)])
    ∧ insertCalls
        (.objectBlock tyT
          [(⟨[.lit "a"]⟩, .intoConv tyT ⟨[.lit "1"]⟩),
           (⟨[.lit "b"]⟩, .intoConv tyT ⟨[.lit "2"]⟩)]) = 2 := by
  have h := claim_c1_object_insert_calls tyT
    [([.lit "a"], [.lit "1"]), ([.lit "b"], [.lit "2"])]
    [.intoConv tyT ⟨[.lit "1"]⟩, .intoConv tyT ⟨[.lit "2"]⟩]
    (by
      intro e he
      simp only [List.mem_cons, List.not_mem_nil, or_false] at he
      rcases he with he | he <;> subst he <;> exact ⟨by simp, rfl, rfl⟩)
    ⟨⟨rfl, rfl⟩, Or.inl ⟨rfl, rfl⟩⟩
    (List.Forall₂.cons (by simp [json_impl, parseExpr, is_not_punct])
      (List.Forall₂.cons (by simp [json_impl, parseExpr, is_not_punct])
        List.Forall₂.nil))
  exact h

/-- C2 (amended): the original claim fails on the code - a brace/bracket
group element in a non-final position leaves its trailing separator
unconsumed, which becomes a spurious empty element that fails to parse
(`claim_c2_counterexample`).  Amended: for every well-formed array literal
with N elements whose non-final elements are scalar expression segments (the
final element may also be a single nested brace/bracket literal), the emitted
fragment is the array construction that performs exactly N
append-ordered-entry (`push_back`) calls, one per element in original source
order, and zero for N = 0; the fragment constructs an empty array and finally
converts it into the target type (the `Frag.arrayBlock` code shape). -/
theorem claim_c2_array_push_calls (ty : SynType)
    (vs : List (List TokenTree)) (fs : List Frag)
    (hwf : WFArrElems vs)
    (hc : List.Forall₂ (fun v f => json_impl ty v = some f) vs fs) :
    json_impl ty [.group .bracket (sepJoin vs)] = some (.arrayBlock ty fs)
    ∧ pushCalls (.arrayBlock ty fs) = vs.length := by
  have h := arrElems_encode ty vs fs hwf hc
  constructor
  · simp only [json_impl, h]
    rfl
  · simp only [pushCalls]
    exact (List.Forall₂.length_eq hc).symm

/-- C2 counterexample: the two-element array literal `[[],3]` satisfies every
well-formedness hypothesis of the original claim - both elements are
comma-free and compile on their own - yet the compiler rejects the literal
instead of emitting two `push_back` calls: the comma after the group element
is never consumed and becomes an empty third segment that fails to parse. -/
theorem claim_c2_counterexample :
    (∀ v ∈ ([[TokenTree.group Delim.bracket []], [TokenTree.lit "3"]] :
        List (List TokenTree)),
      v.all (is_not_punct ',') = true)
    ∧ List.Forall₂ (fun v f => json_impl tyT v = some f)
        [[TokenTree.group Delim.bracket []], [TokenTree.lit "3"]]
        [Frag.arrayBlock tyT [], Frag.intoConv tyT ⟨[TokenTree.lit "3"]⟩]
    ∧ json_impl tyT [.group .bracket
        (sepJoin [[TokenTree.group Delim.bracket []], [TokenTree.lit "3"]])]
      = Option.none := by
  refine ⟨?_, ?_, ?_⟩
  · intro v hv
    simp only [List.mem_cons, List.not_mem_nil, or_false] at hv
    rcases hv with hv | hv <;> subst hv <;> rfl
  · exact List.Forall₂.cons (by simp [json_impl, arrElems])
      (List.Forall₂.cons (by simp [json_impl, parseExpr, is_not_punct])
        List.Forall₂.nil)
  · simp [json_impl, arrElems, sepJoin, seg_consume, take_while_consume,
      is_not_punct, parseExpr]

theorem claim_c2_witness :
    json_impl tyT [.group .bracket (sepJoin [[TokenTree.lit "1"], [TokenTree.lit "2"]])]
      = some (.arrayBlock tyT [.intoConv tyT ⟨[.lit "1"]⟩, .intoConv tyT ⟨[.lit "2"]⟩])
    ∧ pushCalls (.arrayBlock tyT
        [.intoConv tyT ⟨[.lit "1"]⟩, .intoConv tyT ⟨[.lit "2"]⟩]) = 2 := by
  have h := claim_c2_array_push_calls tyT [[TokenTree.lit "1"], [TokenTree.lit "2"]]
    [.intoConv tyT ⟨[.lit "1"]⟩, .intoConv tyT ⟨[.lit "2"]⟩]
    ⟨⟨rfl, rfl⟩, Or.inl ⟨rfl, rfl⟩⟩
    (List.Forall₂.cons (by simp [json_impl, parseExpr, is_not_punct])
      (List.Forall₂.cons (by simp [json_impl, parseExpr, is_not_punct])
        List.Forall₂.nil))
  exact h

/-- C3: splitting never cuts at a separator inside a `group` token: the
splitter predicate accepts every group whatever its contents, a group at the
head of the stream is always appended whole to the current segment, and
splitting the stream `a,[b,c],d` on `,` yields exactly the three segments
`a`, `[b,c]`, `d`. -/
theorem claim_c3_splitter_groups_opaque :
    (∀ (sep : Char) (d : Delim) (inner : List TokenTree),
        is_not_punct sep (.group d inner) = true)
    ∧ (∀ (sep : Char) (d : Delim) (inner ts : List TokenTree),
        take_while_consume (is_not_punct sep) (.group d inner :: ts)
          = (.group d inner :: (take_while_consume (is_not_punct sep) ts).1,
             (take_while_consume (is_not_punct sep) ts).2))
    ∧ split ',' [.ident "a", .punct ',',
        .group .bracket [.ident "b", .punct ',', .ident "c"],
        .punct ',', .ident "d"]
      = [[.ident "a"],
         [.group .bracket [.ident "b", .punct ',', .ident "c"]],
         [.ident "d"]] := by
  refine ⟨fun sep d inner => rfl,
    fun sep d inner ts => take_while_consume_cons_pos _ _ _ rfl, ?_⟩
  simp [split, take_while_consume, is_not_punct]

/-- C4: classification is decided by the leading group's bracket kind alone -
a bracket-delimited group always compiles (when it compiles) to an array
construction, never an object one, and a brace-delimited group always compiles
to an object construction, never an array one, whatever the group contains. -/
theorem claim_c4_classification (ty : SynType) (inner rest : List TokenTree) :
    (∀ f, json_impl ty (.group .bracket inner :: rest) = some f →
        (∃ elems, f = .arrayBlock ty elems) ∧ buildsObject f = false)
    ∧ (∀ f, json_impl ty (.group .brace inner :: rest) = some f →
        (∃ entries, f = .objectBlock ty entries) ∧ buildsArray f = false) := by
  constructor
  · intro f hf
    simp only [json_impl] at hf
    cases h : arrElems ty inner with
    | none => rw [h] at hf; cases hf
    | some vs =>
      rw [h] at hf
      injection hf with hf2
      subst hf2
      exact ⟨⟨vs, rfl⟩, rfl⟩
  · intro f hf
    simp only [json_impl] at hf
    cases h : objEntries ty inner with
    | none => rw [h] at hf; cases hf
    | some es =>
      rw [h] at hf
      injection hf with hf2
      subst hf2
      exact ⟨⟨es, rfl⟩, rfl⟩

theorem claim_c4_witness :
    ((∃ elems, (Frag.arrayBlock tyT []) = Frag.arrayBlock tyT elems)
      ∧ buildsObject (Frag.arrayBlock tyT []) = false)
    ∧ ((∃ entries, (Frag.objectBlock tyT []) = Frag.objectBlock tyT entries)
      ∧ buildsArray (Frag.objectBlock tyT []) = false) := by
  constructor
  · exact (claim_c4_classification tyT [] []).1 (Frag.arrayBlock tyT [])
      (by simp [json_impl, arrElems])
  · exact (claim_c4_classification tyT [] []).2 (Frag.objectBlock tyT [])
      (by simp [json_impl, objEntries])

theorem json_impl_scalar_eq (ty : SynType) (ts : List TokenTree)
    (h : leadsObjectOrArray ts = false) :
    json_impl ty ts = (parseExpr ts).map (Frag.intoConv ty) := by
  cases ts with
  | nil => simp [json_impl]
  | cons t rest =>
    cases t with
    | ident s => simp [json_impl]
    | lit s => simp [json_impl]
    | punct c => simp [json_impl]
    | group d inner =>
      cases d with
      | brace => exact Bool.noConfusion h
      | bracket => exact Bool.noConfusion h
      | parenthesis => simp [json_impl]
      | none => simp [json_impl]

/-- C5: an input that does not begin with a brace- or bracket-delimited group
(a bare expression such as `1 + 2`, or a parenthesis group) compiles to the
single generic conversion of the whole expression into the target type, and
never to an object or array construction. -/
theorem claim_c5_scalar_fallback (ty : SynType) (ts : List TokenTree)
    (h : leadsObjectOrArray ts = false) :
    json_impl ty ts = (parseExpr ts).map (Frag.intoConv ty) :=
  json_impl_scalar_eq ty ts h

theorem claim_c5_witness :
    json_impl tyT [.lit "1", .punct '+', .lit "2"]
      = (parseExpr [.lit "1", .punct '+', .lit "2"]).map (Frag.intoConv tyT) :=
  claim_c5_scalar_fallback tyT [.lit "1", .punct '+', .lit "2"] rfl

/-- C9 (implicit): when the input begins with a brace- or bracket-delimited
group, everything after that group is silently discarded - the compiler emits
exactly the fragment it would emit for the leading group alone, with no
error. -/
theorem claim_c9_trailing_tokens_discarded (ty : SynType) (inner rest : List TokenTree) :
    json_impl ty (.group .brace inner :: rest) = json_impl ty [.group .brace inner]
    ∧ json_impl ty (.group .bracket inner :: rest) = json_impl ty [.group .bracket inner] := by
  constructor <;> simp only [json_impl]

theorem eq_nil_of_sizeL_le_zero (ts : List TokenTree) (h : sizeL ts ≤ 0) : ts = [] := by
  cases ts with
  | nil => rfl
  | cons t r =>
    exfalso
    simp only [sizeL] at h
    have := sizeTT_pos t
    omega

theorem targets_master (ty : SynType) :
    ∀ n : Nat, ∀ ts : List TokenTree, sizeL ts ≤ n →
      ((∀ f, json_impl ty ts = some f → Targets ty f)
       ∧ (∀ es, objEntries ty ts = some es → ∀ p ∈ es, Targets ty p.2)
       ∧ (∀ vs, arrElems ty ts = some vs → ∀ g ∈ vs, Targets ty g)) := by
  intro n
  induction n with
  | zero =>
    intro ts hts
    have hnil := eq_nil_of_sizeL_le_zero ts hts
    subst hnil
    refine ⟨?_, ?_, ?_⟩
    · intro f hf
      rw [json_impl_nil] at hf
      cases hf
    · intro es hes p hp
      rw [objEntries_nil] at hes
      injection hes with h2
      subst h2
      cases hp
    · intro vs hvs g hg
      rw [arrElems_nil] at hvs
      injection hvs with h2
      subst h2
      cases hg
  | succ n ihn =>
    intro ts hts
    have hJ : ∀ ts' : List TokenTree, sizeL ts' ≤ n + 1 →
        ∀ f, json_impl ty ts' = some f → Targets ty f := by
      intro ts' hts' f hf
      cases hsh : leadsObjectOrArray ts' with
      | false =>
        rw [json_impl_scalar_eq ty ts' hsh] at hf
        cases hp : parseExpr ts' with
        | none => rw [hp] at hf; cases hf
        | some e =>
          rw [hp] at hf
          injection hf with h2
          subst h2
          exact Targets.intoConv e
      | true =>
        cases ts' with
        | nil => cases hsh
        | cons t rest =>
          cases t with
          | ident s => cases hsh
          | lit s => cases hsh
          | punct c => cases hsh
          | group d inner =>
            have hsz : sizeL inner ≤ n := by
              simp only [sizeL, sizeTT] at hts'
              omega
            cases d with
            | parenthesis => cases hsh
            | none => cases hsh
            | brace =>
              simp only [json_impl] at hf
              cases h : objEntries ty inner with
              | none => rw [h] at hf; cases hf
              | some es =>
                rw [h] at hf
                injection hf with h2
                subst h2
                exact Targets.objectBlock es ((ihn inner hsz).2.1 es h)
            | bracket =>
              simp only [json_impl] at hf
              cases h : arrElems ty inner with
              | none => rw [h] at hf; cases hf
              | some vs =>
                rw [h] at hf
                injection hf with h2
                subst h2
                exact Targets.arrayBlock vs ((ihn inner hsz).2.2 vs h)
    refine ⟨hJ ts hts, ?_, ?_⟩
    · intro es hes p hp
      cases ts with
      | nil =>
        rw [objEntries_nil] at hes
        injection hes with h2
        subst h2
        cases hp
      | cons t rest =>
        obtain ⟨k, v, es', hk, hv, he, hes'⟩ :=
          objEntries_cons_inv ty (t :: rest) es (by simp) hes
        subst hes'
        have hlt : sizeL (take_while_consume (is_not_punct ':') (t :: rest)).2
            < sizeL (t :: rest) :=
          take_while_consume_sizeL_snd_lt (is_not_punct ':') (t :: rest) (by simp)
        have hs1 := seg_consume_sizeL_fst
          (take_while_consume (is_not_punct ':') (t :: rest)).2
        have hs2 := seg_consume_sizeL_snd
          (take_while_consume (is_not_punct ':') (t :: rest)).2
        rcases List.mem_cons.mp hp with hpe | hpe
        · subst hpe
          exact hJ _ (by omega) v hv
        · exact (ihn _ (by omega)).2.1 es' he p hpe
    · intro vs hvs g hg
      cases ts with
      | nil =>
        rw [arrElems_nil] at hvs
        injection hvs with h2
        subst h2
        cases hg
      | cons t rest =>
        obtain ⟨v, vs', hv, he, hvs'⟩ :=
          arrElems_cons_inv ty (t :: rest) vs (by simp) hvs
        subst hvs'
        have hs1 := seg_consume_sizeL_fst (t :: rest)
        have hs2 : sizeL (seg_consume (t :: rest)).2 < sizeL (t :: rest) :=
          seg_consume_sizeL_snd_lt (t :: rest) (by simp)
        rcases List.mem_cons.mp hg with hge | hge
        · subst hge
          exact hJ _ (by omega) g hv
        · exact (ihn _ (by omega)).2.2 vs' he g hge

/-- C8: the target-type descriptor is an invariant of the recursion - whenever
the compiler succeeds, every construction and conversion in the emitted
fragment (`empty_object`, `empty_array` and the `Into` conversions, at every
nesting depth) targets exactly the type that was supplied to the call, the
descriptor `json_impl` threads unchanged through every recursive call. -/
theorem claim_c8_type_descriptor_invariant (ty : SynType) (ts : List TokenTree)
    (f : Frag) (h : json_impl ty ts = some f) : Targets ty f :=
  (targets_master ty (sizeL ts) ts le_rfl).1 f h

theorem claim_c8_witness : Targets tyT (Frag.intoConv tyT ⟨[.lit "1"]⟩) :=
  claim_c8_type_descriptor_invariant tyT [.lit "1"] (Frag.intoConv tyT ⟨[.lit "1"]⟩)
    (by simp [json_impl, parseExpr, is_not_punct])

theorem isContainerGroup_cases (t : TokenTree) (h : isContainerGroup t = true) :
    (∃ inner, t = .group .brace inner) ∨ (∃ inner, t = .group .bracket inner) := by
  cases t with
  | ident s => exact Bool.noConfusion h
  | lit s => exact Bool.noConfusion h
  | punct c => exact Bool.noConfusion h
  | group d inner =>
    cases d with
    | brace => exact Or.inl ⟨inner, rfl⟩
    | bracket => exact Or.inr ⟨inner, rfl⟩
    | parenthesis => exact Bool.noConfusion h
    | none => exact Bool.noConfusion h

theorem seg_consume_container (t : TokenTree) (rest : List TokenTree)
    (h : isContainerGroup t = true) :
    seg_consume (t :: rest) = ([t], rest) := by
  rcases isContainerGroup_cases t h with ⟨inner, rfl⟩ | ⟨inner, rfl⟩
  · rfl
  · rfl

theorem arrElems_trailing (ty : SynType) :
    ∀ n : Nat, ∀ ts : List TokenTree, ts.length ≤ n → ts ≠ [] →
      ts.getLast? ≠ some (TokenTree.punct ',') →
      (∀ t, ts.getLast? = some t → isContainerGroup t = false) →
      arrElems ty (ts ++ [TokenTree.punct ',']) = arrElems ty ts := by
  intro n
  induction n with
  | zero =>
    intro ts hlen hne _ _
    cases ts with
    | nil => exact absurd rfl hne
    | cons t r => simp at hlen
  | succ n ih =>
    intro ts hlen hne hlast hlastg
    rcases seg_consume_cases ts with ⟨t, rest, hts, hct, hseg⟩ | ⟨hlead, hseg⟩
    · -- the first element is a nested literal: only the group is consumed
      subst hts
      have hrne : rest ≠ [] := by
        intro hh
        subst hh
        have hfalse := hlastg t (by simp)
        rw [hfalse] at hct
        cases hct
      have hlastr : (t :: rest).getLast? = rest.getLast? :=
        List.getLast?_append_of_ne_nil [t] hrne
      have hsegL : seg_consume ((t :: rest) ++ [TokenTree.punct ','])
          = ([t], rest ++ [TokenTree.punct ',']) := by
        rw [List.cons_append]
        exact seg_consume_container t _ hct
      have hlen' : rest.length ≤ n := by
        simp only [List.length_cons] at hlen
        omega
      cases hj : json_impl ty [t] with
      | none =>
        rw [arrElems_step_none ty ((t :: rest) ++ [TokenTree.punct ',']) (by simp)
            (by rw [hsegL]; exact hj),
          arrElems_step_none ty (t :: rest) (by simp) (by rw [hseg]; exact hj)]
      | some v =>
        rw [arrElems_step_some ty ((t :: rest) ++ [TokenTree.punct ',']) v (by simp)
            (by rw [hsegL]; exact hj),
          arrElems_step_some ty (t :: rest) v (by simp) (by rw [hseg]; exact hj)]
        simp only [hsegL, hseg]
        rw [ih rest hlen' hrne (by rw [← hlastr]; exact hlast)
          (fun x hx => hlastg x (by rw [hlastr]; exact hx))]
    · -- scalar consumption: the old take-while reasoning applies
      have hleadL : leadsObjectOrArray (ts ++ [TokenTree.punct ',']) = false := by
        cases ts with
        | nil => exact absurd rfl hne
        | cons t rest =>
          rw [List.cons_append, leadsObjectOrArray_cons]
          rw [leadsObjectOrArray_cons] at hlead
          exact hlead
      have hsegL := seg_consume_scalar (ts ++ [TokenTree.punct ',']) hleadL
      rcases take_while_consume_cases (is_not_punct ',') ts with
        ⟨hall, heq⟩ | ⟨a, c, r, hall, hc, hts, heq⟩
      · have h2 : take_while_consume (is_not_punct ',') (ts ++ [TokenTree.punct ','])
            = (ts, []) :=
          take_while_consume_sep _ _ _ _ hall (is_not_punct_self ',')
        cases hj : json_impl ty ts with
        | none =>
          rw [arrElems_step_none ty (ts ++ [TokenTree.punct ',']) (by simp)
              (by rw [hsegL, h2]; exact hj),
            arrElems_step_none ty ts hne (by rw [hseg, heq]; exact hj)]
        | some v =>
          rw [arrElems_step_some ty (ts ++ [TokenTree.punct ',']) v (by simp)
              (by rw [hsegL, h2]; exact hj),
            arrElems_step_some ty ts v hne (by rw [hseg, heq]; exact hj)]
          simp only [hsegL, hseg, h2, heq]
      · have hc' : c = TokenTree.punct ',' := eq_punct_of_is_not_punct_eq_false ',' c hc
        subst hc'
        subst hts
        have hrne : r ≠ [] := by
          intro hh
          subst hh
          apply hlast
          rw [List.getLast?_append_cons]
          rfl
        have hlast' : r.getLast? ≠ some (TokenTree.punct ',') := by
          rw [List.getLast?_append_cons,
            show TokenTree.punct ',' :: r = [TokenTree.punct ','] ++ r from rfl,
            List.getLast?_append_of_ne_nil _ hrne] at hlast
          exact hlast
        have hlastg' : ∀ x, r.getLast? = some x → isContainerGroup x = false := by
          intro x hx
          apply hlastg
          rw [List.getLast?_append_cons,
            show TokenTree.punct ',' :: r = [TokenTree.punct ','] ++ r from rfl,
            List.getLast?_append_of_ne_nil _ hrne]
          exact hx
        have hassoc : (a ++ TokenTree.punct ',' :: r) ++ [TokenTree.punct ',']
            = a ++ TokenTree.punct ',' :: (r ++ [TokenTree.punct ',']) := by simp
        have h2 : take_while_consume (is_not_punct ',')
            (a ++ TokenTree.punct ',' :: (r ++ [TokenTree.punct ',']))
            = (a, r ++ [TokenTree.punct ',']) :=
          take_while_consume_sep _ _ _ _ hall (is_not_punct_self ',')
        have hsegL2 : seg_consume (a ++ TokenTree.punct ',' :: (r ++ [TokenTree.punct ',']))
            = (a, r ++ [TokenTree.punct ',']) := by
          rw [← hassoc, hsegL, hassoc]
          exact h2
        have hlen' : r.length ≤ n := by
          simp only [List.length_append, List.length_cons] at hlen
          omega
        cases hj : json_impl ty a with
        | none =>
          rw [hassoc,
            arrElems_step_none ty (a ++ TokenTree.punct ',' :: (r ++ [TokenTree.punct ',']))
              (by simp) (by rw [hsegL2]; exact hj),
            arrElems_step_none ty (a ++ TokenTree.punct ',' :: r) (by simp)
              (by rw [hseg, heq]; exact hj)]
        | some v =>
          rw [hassoc,
            arrElems_step_some ty (a ++ TokenTree.punct ',' :: (r ++ [TokenTree.punct ',']))
              v (by simp) (by rw [hsegL2]; exact hj),
            arrElems_step_some ty (a ++ TokenTree.punct ',' :: r) v (by simp)
              (by rw [hseg, heq]; exact hj)]
          simp only [hsegL2, hseg, heq]
          rw [ih r hlen' hrne hlast' hlastg']

theorem objEntries_trailing (ty : SynType) :
    ∀ n : Nat, ∀ ts : List TokenTree, ts.length ≤ n → ts ≠ [] →
      ts.getLast? ≠ some (TokenTree.punct ',') →
      (∀ t, ts.getLast? = some t → isContainerGroup t = false) →
      objEntries ty (ts ++ [TokenTree.punct ',']) = objEntries ty ts := by
  intro n
  induction n with
  | zero =>
    intro ts hlen hne _ _
    cases ts with
    | nil => exact absurd rfl hne
    | cons t r => simp at hlen
  | succ n ih =>
    intro ts hlen hne hlast hlastg
    rcases take_while_consume_cases (is_not_punct ':') ts with
      ⟨hall, heq⟩ | ⟨a, c, b, hall, hc, hts, heq⟩
    · have h1 : take_while_consume (is_not_punct ':') (ts ++ [TokenTree.punct ','])
          = (ts ++ [TokenTree.punct ','], []) := by
        apply take_while_consume_of_all
        rw [List.all_append]
        simp [hall, is_not_punct]
      have hkey1 : parseExpr (ts ++ [TokenTree.punct ',']) = Option.none :=
        parseExpr_none_of_comma _ (by simp)
      have hLHS : objEntries ty (ts ++ [TokenTree.punct ',']) = Option.none :=
        objEntries_step_none_key ty (ts ++ [TokenTree.punct ',']) (by simp)
          (by rw [h1]; exact hkey1)
      cases hcm : ts.all (is_not_punct ',') with
      | false =>
        have hex : ∃ x ∈ ts, is_not_punct ',' x = false := by
          by_contra hco
          push_neg at hco
          have hat : ts.all (is_not_punct ',') = true :=
            List.all_eq_true.mpr (fun x hx => by
              cases hxx : is_not_punct ',' x
              · exact absurd hxx (hco x hx)
              · rfl)
          rw [hat] at hcm
          cases hcm
        obtain ⟨x, hx, hnx⟩ := hex
        have hx' : x = TokenTree.punct ',' :=
          eq_punct_of_is_not_punct_eq_false ',' x hnx
        subst hx'
        have hkey2 : parseExpr ts = Option.none := parseExpr_none_of_comma ts hx
        rw [hLHS, objEntries_step_none_key ty ts hne (by rw [heq]; exact hkey2)]
      | true =>
        have hkey2 : parseExpr ts = some ⟨ts⟩ := parseExpr_some ts hne hcm
        have hval : json_impl ty
            (seg_consume (take_while_consume (is_not_punct ':') ts).2).1
            = Option.none := by
          rw [heq]
          exact json_impl_nil ty
        rw [hLHS, objEntries_step_none_val ty ts ⟨ts⟩ hne
          (by rw [heq]; exact hkey2) hval]
    · have hc' : c = TokenTree.punct ':' := eq_punct_of_is_not_punct_eq_false ':' c hc
      subst hc'
      subst hts
      have hassoc : (a ++ TokenTree.punct ':' :: b) ++ [TokenTree.punct ',']
          = a ++ TokenTree.punct ':' :: (b ++ [TokenTree.punct ',']) := by simp
      have h1L : take_while_consume (is_not_punct ':')
          (a ++ TokenTree.punct ':' :: (b ++ [TokenTree.punct ',']))
          = (a, b ++ [TokenTree.punct ',']) :=
        take_while_consume_sep _ _ _ _ hall (is_not_punct_self ':')
      cases hkey : parseExpr a with
      | none =>
        rw [hassoc,
          objEntries_step_none_key ty
            (a ++ TokenTree.punct ':' :: (b ++ [TokenTree.punct ','])) (by simp)
            (by rw [h1L]; exact hkey),
          objEntries_step_none_key ty (a ++ TokenTree.punct ':' :: b) (by simp)
            (by rw [heq]; exact hkey)]
      | some k =>
        rcases seg_consume_cases b with ⟨g, b2, hb, hct, hseg⟩ | ⟨hlead, hseg⟩
        · -- nested-literal value: only the group is consumed
          subst hb
          have hb2ne : b2 ≠ [] := by
            intro hh
            subst hh
            have hgl : (a ++ TokenTree.punct ':' :: [g]).getLast? = some g := by
              rw [show a ++ TokenTree.punct ':' :: [g]
                  = (a ++ [TokenTree.punct ':']) ++ [g] by simp,
                List.getLast?_append_cons]
              rfl
            have hfalse := hlastg g hgl
            rw [hfalse] at hct
            cases hct
          have hlastb : (a ++ TokenTree.punct ':' :: (g :: b2)).getLast? = b2.getLast? := by
            rw [show a ++ TokenTree.punct ':' :: (g :: b2)
                = (a ++ [TokenTree.punct ':', g]) ++ b2 by simp,
              List.getLast?_append_of_ne_nil _ hb2ne]
          have hsegL : seg_consume ((g :: b2) ++ [TokenTree.punct ','])
              = ([g], b2 ++ [TokenTree.punct ',']) := by
            rw [List.cons_append]
            exact seg_consume_container g _ hct
          have hlen' : b2.length ≤ n := by
            simp only [List.length_append, List.length_cons] at hlen
            omega
          cases hj : json_impl ty [g] with
          | none =>
            rw [hassoc,
              objEntries_step_none_val ty
                (a ++ TokenTree.punct ':' :: ((g :: b2) ++ [TokenTree.punct ','])) k
                (by simp) (by rw [h1L]; exact hkey)
                (by rw [h1L]; simp only; rw [hsegL]; exact hj),
              objEntries_step_none_val ty (a ++ TokenTree.punct ':' :: (g :: b2)) k
                (by simp) (by rw [heq]; exact hkey)
                (by rw [heq]; simp only; rw [hseg]; exact hj)]
          | some v =>
            rw [hassoc,
              objEntries_step_some ty
                (a ++ TokenTree.punct ':' :: ((g :: b2) ++ [TokenTree.punct ','])) k v
                (by simp) (by rw [h1L]; exact hkey)
                (by rw [h1L]; simp only; rw [hsegL]; exact hj),
              objEntries_step_some ty (a ++ TokenTree.punct ':' :: (g :: b2)) k v
                (by simp) (by rw [heq]; exact hkey)
                (by rw [heq]; simp only; rw [hseg]; exact hj)]
            simp only [h1L, heq, hsegL, hseg]
            rw [ih b2 hlen' hb2ne (by rw [← hlastb]; exact hlast)
              (fun x hx => hlastg x (by rw [hlastb]; exact hx))]
        · -- scalar value: the old take-while reasoning applies
          have hleadL : leadsObjectOrArray (b ++ [TokenTree.punct ',']) = false := by
            cases b with
            | nil => rfl
            | cons t0 b2 =>
              rw [List.cons_append, leadsObjectOrArray_cons]
              rw [leadsObjectOrArray_cons] at hlead
              exact hlead
          have hsegL := seg_consume_scalar (b ++ [TokenTree.punct ',']) hleadL
          rcases take_while_consume_cases (is_not_punct ',') b with
            ⟨hral, hreq⟩ | ⟨c1, cc, c2, hc1all, hcc, hrts, hreq⟩
          · have h2L : take_while_consume (is_not_punct ',') (b ++ [TokenTree.punct ','])
                = (b, []) :=
              take_while_consume_sep _ _ _ _ hral (is_not_punct_self ',')
            cases hj : json_impl ty b with
            | none =>
              rw [hassoc,
                objEntries_step_none_val ty
                  (a ++ TokenTree.punct ':' :: (b ++ [TokenTree.punct ','])) k (by simp)
                  (by rw [h1L]; exact hkey)
                  (by rw [h1L]; simp only; rw [hsegL, h2L]; exact hj),
                objEntries_step_none_val ty (a ++ TokenTree.punct ':' :: b) k (by simp)
                  (by rw [heq]; exact hkey)
                  (by rw [heq]; simp only; rw [hseg, hreq]; exact hj)]
            | some v =>
              rw [hassoc,
                objEntries_step_some ty
                  (a ++ TokenTree.punct ':' :: (b ++ [TokenTree.punct ','])) k v (by simp)
                  (by rw [h1L]; exact hkey)
                  (by rw [h1L]; simp only; rw [hsegL, h2L]; exact hj),
                objEntries_step_some ty (a ++ TokenTree.punct ':' :: b) k v (by simp)
                  (by rw [heq]; exact hkey)
                  (by rw [heq]; simp only; rw [hseg, hreq]; exact hj)]
              simp only [h1L, heq, hsegL, hseg, h2L, hreq]
          · have hcc' : cc = TokenTree.punct ',' := eq_punct_of_is_not_punct_eq_false ',' cc hcc
            subst hcc'
            subst hrts
            have hc2ne : c2 ≠ [] := by
              intro hh
              subst hh
              apply hlast
              rw [show a ++ TokenTree.punct ':' :: (c1 ++ [TokenTree.punct ','])
                  = (a ++ TokenTree.punct ':' :: c1) ++ [TokenTree.punct ','] by simp,
                List.getLast?_append_cons]
              rfl
            have hlastc : (a ++ TokenTree.punct ':' :: (c1 ++ TokenTree.punct ',' :: c2)).getLast?
                = c2.getLast? := by
              rw [show a ++ TokenTree.punct ':' :: (c1 ++ TokenTree.punct ',' :: c2)
                  = (a ++ TokenTree.punct ':' :: c1 ++ [TokenTree.punct ',']) ++ c2 by simp,
                List.getLast?_append_of_ne_nil _ hc2ne]
            have hassoc2 : (c1 ++ TokenTree.punct ',' :: c2) ++ [TokenTree.punct ',']
                = c1 ++ TokenTree.punct ',' :: (c2 ++ [TokenTree.punct ',']) := by simp
            have h2L : take_while_consume (is_not_punct ',')
                (c1 ++ TokenTree.punct ',' :: (c2 ++ [TokenTree.punct ',']))
                = (c1, c2 ++ [TokenTree.punct ',']) :=
              take_while_consume_sep _ _ _ _ hc1all (is_not_punct_self ',')
            have hsegL2 : seg_consume
                (c1 ++ TokenTree.punct ',' :: (c2 ++ [TokenTree.punct ',']))
                = (c1, c2 ++ [TokenTree.punct ',']) := by
              rw [← hassoc2, hsegL, hassoc2]
              exact h2L
            have hlen' : c2.length ≤ n := by
              simp only [List.length_append, List.length_cons] at hlen
              omega
            cases hj : json_impl ty c1 with
            | none =>
              rw [hassoc,
                objEntries_step_none_val ty
                  (a ++ TokenTree.punct ':' :: ((c1 ++ TokenTree.punct ',' :: c2)
                    ++ [TokenTree.punct ','])) k (by simp)
                  (by rw [h1L]; exact hkey)
                  (by rw [h1L]; simp only; rw [hassoc2, hsegL2]; exact hj),
                objEntries_step_none_val ty
                  (a ++ TokenTree.punct ':' :: (c1 ++ TokenTree.punct ',' :: c2)) k
                  (by simp) (by rw [heq]; exact hkey)
                  (by rw [heq]; simp only; rw [hseg, hreq]; exact hj)]
            | some v =>
              rw [hassoc,
                objEntries_step_some ty
                  (a ++ TokenTree.punct ':' :: ((c1 ++ TokenTree.punct ',' :: c2)
                    ++ [TokenTree.punct ','])) k v (by simp)
                  (by rw [h1L]; exact hkey)
                  (by rw [h1L]; simp only; rw [hassoc2, hsegL2]; exact hj),
                objEntries_step_some ty
                  (a ++ TokenTree.punct ':' :: (c1 ++ TokenTree.punct ',' :: c2)) k v
                  (by simp) (by rw [heq]; exact hkey)
                  (by rw [heq]; simp only; rw [hseg, hreq]; exact hj)]
              have h1L2 : take_while_consume (is_not_punct ':')
                  (a ++ TokenTree.punct ':' :: (c1 ++ TokenTree.punct ',' :: (c2 ++ [TokenTree.punct ','])))
                  = (a, c1 ++ TokenTree.punct ',' :: (c2 ++ [TokenTree.punct ','])) :=
                take_while_consume_sep _ _ _ _ hall (is_not_punct_self ':')
              simp only [hassoc2, h1L2, hsegL2, heq, hseg, hreq]
              rw [ih c2 hlen' hc2ne (by rw [← hlastc]; exact hlast)
                (fun x hx => hlastg x (by rw [hlastc]; exact hx))]

/-- C7 (amended): the original claim fails on the code - when the final
element or entry value is itself a brace/bracket group, its separator is never
consumed, so the trailing separator becomes an empty segment and the expansion
fails to compile (`claim_c7_counterexample`).  Amended: for every object or
array literal whose entry list is nonempty, does not already end in the entry
separator, and whose last top-level token is not a brace/bracket group (i.e.
the final value is consumed by the scalar path), a trailing entry separator is
accepted and changes nothing - the compiled fragment is exactly the one for
the literal without the trailing separator, so no extra (empty) entry or
element is produced. -/
theorem claim_c7_trailing_separator (ty : SynType) (inner : List TokenTree)
    (hne : inner ≠ []) (hlast : inner.getLast? ≠ some (TokenTree.punct ','))
    (hlastg : ∀ t, inner.getLast? = some t → isContainerGroup t = false) :
    json_impl ty [.group .brace (inner ++ [.punct ','])]
      = json_impl ty [.group .brace inner]
    ∧ json_impl ty [.group .bracket (inner ++ [.punct ','])]
      = json_impl ty [.group .bracket inner] := by
  constructor
  · simp only [json_impl]
    rw [objEntries_trailing ty inner.length inner le_rfl hne hlast hlastg]
  · simp only [json_impl]
    rw [arrElems_trailing ty inner.length inner le_rfl hne hlast hlastg]

/-- C7 counterexample: the literal `[[1],]` - whose element list ends with a
trailing separator after the nested array `[1]` - fails to compile (the
separator after the group is never consumed and becomes an empty segment),
while `[[1]]` compiles successfully, so the trailing separator is neither
accepted nor inert as the original claim states. -/
theorem claim_c7_counterexample :
    json_impl tyT [.group .bracket
        ([TokenTree.group Delim.bracket [TokenTree.lit "1"]] ++ [TokenTree.punct ','])]
      = Option.none
    ∧ json_impl tyT [.group .bracket [TokenTree.group Delim.bracket [TokenTree.lit "1"]]]
      = some (Frag.arrayBlock tyT
          [Frag.arrayBlock tyT [Frag.intoConv tyT ⟨[TokenTree.lit "1"]⟩]]) := by
  constructor <;>
    simp [json_impl, arrElems, seg_consume, take_while_consume, is_not_punct, parseExpr]

theorem claim_c7_witness :
    json_impl tyT [.group .brace ([.lit "a", .punct ':', .lit "1"] ++ [.punct ','])]
      = json_impl tyT [.group .brace [.lit "a", .punct ':', .lit "1"]]
    ∧ json_impl tyT [.group .bracket ([.lit "1", .punct ',', .lit "2"] ++ [.punct ','])]
      = json_impl tyT [.group .bracket [.lit "1", .punct ',', .lit "2"]] :=
  ⟨(claim_c7_trailing_separator tyT [.lit "a", .punct ':', .lit "1"] (by simp)
      (by simp) (by intro t h; simp at h; subst h; rfl)).1,
   (claim_c7_trailing_separator tyT [.lit "1", .punct ',', .lit "2"] (by simp)
      (by simp) (by intro t h; simp at h; subst h; rfl)).2⟩

theorem split_cons (sep : Char) (ts : List TokenTree) (hne : ts ≠ []) :
    split sep ts = (take_while_consume (is_not_punct sep) ts).1
      :: split sep (take_while_consume (is_not_punct sep) ts).2 := by
  cases ts with
  | nil => exact absurd rfl hne
  | cons t rest => simp only [split]

theorem split_nil (sep : Char) : split sep [] = [] := by
  simp [split]

theorem objEntries_noColon (ty : SynType) :
    ∀ n : Nat, ∀ ts : List TokenTree, ts.length ≤ n →
      (∃ s ∈ split ',' ts, s.all (is_not_punct ':') = true) →
      objEntries ty ts = Option.none := by
  intro n
  induction n with
  | zero =>
    intro ts hlen h
    have hnil : ts = [] := by
      cases ts with
      | nil => rfl
      | cons t r => simp at hlen
    subst hnil
    obtain ⟨s, hs, _⟩ := h
    rw [split_nil] at hs
    exact absurd hs (List.not_mem_nil s)
  | succ n ih =>
    intro ts hlen h
    have hne : ts ≠ [] := by
      intro hh
      subst hh
      obtain ⟨s, hs, _⟩ := h
      rw [split_nil] at hs
      exact absurd hs (List.not_mem_nil s)
    rcases take_while_consume_cases (is_not_punct ',') ts with
      ⟨hall2, heq⟩ | ⟨a, c, r, hall, hc, htseq, heq⟩
    · -- no top-level comma: the whole stream is the single segment
      have hsplit : split ',' ts = [ts] := by
        rw [split_cons ',' ts hne, heq]
        simp only [split_nil]
      rw [hsplit] at h
      obtain ⟨s, hs, hsall⟩ := h
      have hs' : s = ts := by
        rcases List.mem_cons.mp hs with h1 | h1
        · exact h1
        · cases h1
      rw [hs'] at hsall
      have hkey : take_while_consume (is_not_punct ':') ts = (ts, []) :=
        take_while_consume_of_all _ _ hsall
      have hparse : parseExpr ts = some ⟨ts⟩ := parseExpr_some ts hne hall2
      exact objEntries_step_none_val ty ts ⟨ts⟩ hne
        (by rw [hkey]; exact hparse)
        (by rw [hkey]; exact json_impl_nil ty)
    · have hc' : c = TokenTree.punct ',' := eq_punct_of_is_not_punct_eq_false ',' c hc
      subst hc'
      subst htseq
      have hsplit : split ',' (a ++ TokenTree.punct ',' :: r) = a :: split ',' r := by
        rw [split_cons ',' _ (by simp), heq]
      rw [hsplit] at h
      cases hacf : a.all (is_not_punct ':') with
      | true =>
        -- the key take-while runs past the separating comma
        have e1 := take_while_consume_append_all (is_not_punct ':') a
          (TokenTree.punct ',' :: r) hacf
        have e2 := take_while_consume_cons_pos (is_not_punct ':')
          (TokenTree.punct ',') r (by decide)
        have hkeyeq : (take_while_consume (is_not_punct ':')
            (a ++ TokenTree.punct ',' :: r)).1
            = a ++ TokenTree.punct ',' :: (take_while_consume (is_not_punct ':') r).1 := by
          simp only [e1, e2]
        exact objEntries_step_none_key ty _ (by simp)
          (by rw [hkeyeq]; exact parseExpr_none_of_comma _ (by simp))
      | false =>
        obtain ⟨s, hs, hsall⟩ := h
        have hsr : s ∈ split ',' r := by
          rcases List.mem_cons.mp hs with h1 | h1
          · subst h1; rw [hsall] at hacf; cases hacf
          · exact h1
        rcases take_while_consume_cases (is_not_punct ':') a with
          ⟨hacol, _⟩ | ⟨k1, cc, k2, hk1all, hcc, hats, haeq⟩
        · rw [hacol] at hacf; cases hacf
        · have hcc' : cc = TokenTree.punct ':' :=
            eq_punct_of_is_not_punct_eq_false ':' cc hcc
          subst hcc'
          subst hats
          have hassoc : (k1 ++ TokenTree.punct ':' :: k2) ++ TokenTree.punct ',' :: r
              = k1 ++ TokenTree.punct ':' :: (k2 ++ TokenTree.punct ',' :: r) := by simp
          have h1 : take_while_consume (is_not_punct ':')
              (k1 ++ TokenTree.punct ':' :: (k2 ++ TokenTree.punct ',' :: r))
              = (k1, k2 ++ TokenTree.punct ',' :: r) :=
            take_while_consume_sep _ _ _ _ hk1all (is_not_punct_self ':')
          have hk2 : k2.all (is_not_punct ',') = true := by
            rw [List.all_append, List.all_cons] at hall
            simp only [Bool.and_eq_true] at hall
            exact hall.2.2
          rw [hassoc]
          cases hkey : parseExpr k1 with
          | none =>
            exact objEntries_step_none_key ty _ (by simp) (by rw [h1]; exact hkey)
          | some kk =>
            cases k2 with
            | nil =>
              -- empty value segment before the comma: nothing parses
              have hseg0 : seg_consume ([] ++ TokenTree.punct ',' :: r)
                  = ([], r) := by
                simp only [List.nil_append]
                rw [seg_consume_scalar (TokenTree.punct ',' :: r) rfl,
                  take_while_consume_cons_neg _ _ _ (is_not_punct_self ',')]
              exact objEntries_step_none_val ty _ kk (by simp)
                (by rw [h1]; exact hkey)
                (by rw [h1]; simp only; rw [hseg0]; exact json_impl_nil ty)
            | cons g0 k2t =>
              have hk2t : k2t.all (is_not_punct ',') = true := by
                rw [List.all_cons, Bool.and_eq_true] at hk2
                exact hk2.2
              cases hcg : isContainerGroup g0 with
              | true =>
                -- the value starts with a nested literal: only the group is consumed
                have hseg3 : seg_consume (g0 :: (k2t ++ TokenTree.punct ',' :: r))
                    = ([g0], k2t ++ TokenTree.punct ',' :: r) :=
                  seg_consume_container g0 _ hcg
                have hsplit2 : split ',' (k2t ++ TokenTree.punct ',' :: r)
                    = k2t :: split ',' r := by
                  rw [split_cons ',' _ (by simp),
                    take_while_consume_sep _ _ _ _ hk2t (is_not_punct_self ',')]
                have hlen' : (k2t ++ TokenTree.punct ',' :: r).length ≤ n := by
                  simp only [List.length_append, List.length_cons] at hlen ⊢
                  omega
                cases hj : json_impl ty [g0] with
                | none =>
                  exact objEntries_step_none_val ty _ kk (by simp)
                    (by rw [h1]; exact hkey)
                    (by rw [h1]; simp only; simp only [List.cons_append];
                        rw [hseg3]; exact hj)
                | some v =>
                  rw [objEntries_step_some ty _ kk v (by simp)
                    (by rw [h1]; exact hkey)
                    (by rw [h1]; simp only; simp only [List.cons_append];
                        rw [hseg3]; exact hj)]
                  have h1n : take_while_consume (is_not_punct ':')
                      (k1 ++ TokenTree.punct ':' :: (g0 :: (k2t ++ TokenTree.punct ',' :: r)))
                      = (k1, g0 :: (k2t ++ TokenTree.punct ',' :: r)) :=
                    take_while_consume_sep _ _ _ _ hk1all (is_not_punct_self ':')
                  simp only [List.cons_append, h1n, hseg3]
                  rw [ih (k2t ++ TokenTree.punct ',' :: r) hlen'
                    ⟨s, by rw [hsplit2]; exact List.mem_cons_of_mem k2t hsr, hsall⟩]
                  rfl
              | false =>
                -- scalar value: the segment is drained through the separator
                have hlead : leadsObjectOrArray ((g0 :: k2t) ++ TokenTree.punct ',' :: r)
                    = false := by
                  rw [List.cons_append, leadsObjectOrArray_cons]
                  exact hcg
                have h2 : take_while_consume (is_not_punct ',')
                    ((g0 :: k2t) ++ TokenTree.punct ',' :: r) = (g0 :: k2t, r) :=
                  take_while_consume_sep _ _ _ _ hk2 (is_not_punct_self ',')
                have hseg2 : seg_consume ((g0 :: k2t) ++ TokenTree.punct ',' :: r)
                    = (g0 :: k2t, r) := by
                  rw [seg_consume_scalar _ hlead, h2]
                have hlen' : r.length ≤ n := by
                  simp only [List.length_append, List.length_cons] at hlen
                  omega
                cases hj : json_impl ty (g0 :: k2t) with
                | none =>
                  exact objEntries_step_none_val ty _ kk (by simp)
                    (by rw [h1]; exact hkey)
                    (by rw [h1]; simp only; rw [hseg2]; exact hj)
                | some v =>
                  rw [objEntries_step_some ty _ kk v (by simp)
                    (by rw [h1]; exact hkey)
                    (by rw [h1]; simp only; rw [hseg2]; exact hj)]
                  simp only [h1, hseg2]
                  rw [ih r hlen' ⟨s, hsr, hsall⟩]
                  rfl

/-- C6: an object entry segment with no top-level key/value separator `:`
(such as the single entry of the literal written as braces around `"k"`) makes
the whole expansion fail at compile time - the compiler never silently treats
such an entry as a scalar. -/
theorem claim_c6_missing_colon_error (ty : SynType) (inner : List TokenTree)
    (h : ∃ s ∈ split ',' inner, s.all (is_not_punct ':') = true) :
    json_impl ty [.group .brace inner] = Option.none := by
  simp only [json_impl]
  rw [objEntries_noColon ty inner.length inner le_rfl h]
  rfl

theorem claim_c6_witness :
    json_impl tyT [.group .brace [.lit "k"]] = Option.none :=
  claim_c6_missing_colon_error tyT [.lit "k"]
    ⟨[.lit "k"], by simp [split, take_while_consume, is_not_punct], rfl⟩

theorem arrElems_double_sep (ty : SynType) :
    ∀ n : Nat, ∀ pre post : List TokenTree, pre.length ≤ n →
      arrElems ty (pre ++ TokenTree.punct ',' :: TokenTree.punct ',' :: post)
        = Option.none := by
  intro n
  induction n with
  | zero =>
    intro pre post hlen
    have hnil : pre = [] := by
      cases pre with
      | nil => rfl
      | cons t r => simp at hlen
    subst hnil
    have hseg0 : seg_consume (TokenTree.punct ',' :: TokenTree.punct ',' :: post)
        = ([], TokenTree.punct ',' :: post) := by
      rw [seg_consume_scalar (TokenTree.punct ',' :: TokenTree.punct ',' :: post) rfl,
        take_while_consume_cons_neg _ _ _ (is_not_punct_self ',')]
    exact arrElems_step_none ty _ (by simp)
      (by simp only [List.nil_append]; rw [hseg0]; exact json_impl_nil ty)
  | succ n ih =>
    intro pre post hlen
    cases pre with
    | nil =>
      have hseg0 : seg_consume (TokenTree.punct ',' :: TokenTree.punct ',' :: post)
          = ([], TokenTree.punct ',' :: post) := by
        rw [seg_consume_scalar (TokenTree.punct ',' :: TokenTree.punct ',' :: post) rfl,
          take_while_consume_cons_neg _ _ _ (is_not_punct_self ',')]
      exact arrElems_step_none ty _ (by simp)
        (by simp only [List.nil_append]; rw [hseg0]; exact json_impl_nil ty)
    | cons p0 pre2 =>
      cases hcg : isContainerGroup p0 with
      | true =>
        -- the first element is a nested literal: only the group is consumed
        have hseg3 : seg_consume
            (p0 :: (pre2 ++ TokenTree.punct ',' :: TokenTree.punct ',' :: post))
            = ([p0], pre2 ++ TokenTree.punct ',' :: TokenTree.punct ',' :: post) :=
          seg_consume_container p0 _ hcg
        have hlen' : pre2.length ≤ n := by
          simp only [List.length_cons] at hlen
          omega
        cases hj : json_impl ty [p0] with
        | none =>
          exact arrElems_step_none ty _ (by simp)
            (by simp only [List.cons_append]; rw [hseg3]; exact hj)
        | some v =>
          rw [show (p0 :: pre2) ++ TokenTree.punct ',' :: TokenTree.punct ',' :: post
              = p0 :: (pre2 ++ TokenTree.punct ',' :: TokenTree.punct ',' :: post)
              from by simp,
            arrElems_step_some ty _ v (by simp) (by rw [hseg3]; exact hj)]
          simp only [hseg3]
          rw [ih pre2 post hlen']
          rfl
      | false =>
        have hlead : leadsObjectOrArray
            ((p0 :: pre2) ++ TokenTree.punct ',' :: TokenTree.punct ',' :: post)
            = false := by
          rw [List.cons_append, leadsObjectOrArray_cons]
          exact hcg
        rcases take_while_consume_cases (is_not_punct ',') (p0 :: pre2) with
          ⟨hall, _⟩ | ⟨a, c, r, hall, hc, hpre, _⟩
        · have h2 : take_while_consume (is_not_punct ',')
              ((p0 :: pre2) ++ TokenTree.punct ',' :: TokenTree.punct ',' :: post)
              = (p0 :: pre2, TokenTree.punct ',' :: post) :=
            take_while_consume_sep _ _ _ _ hall (is_not_punct_self ',')
          have hseg2 : seg_consume
              ((p0 :: pre2) ++ TokenTree.punct ',' :: TokenTree.punct ',' :: post)
              = (p0 :: pre2, TokenTree.punct ',' :: post) := by
            rw [seg_consume_scalar _ hlead, h2]
          cases hj : json_impl ty (p0 :: pre2) with
          | none =>
            exact arrElems_step_none ty _ (by simp) (by rw [hseg2]; exact hj)
          | some v =>
            rw [arrElems_step_some ty _ v (by simp) (by rw [hseg2]; exact hj)]
            simp only [hseg2]
            have hseg4 : seg_consume (TokenTree.punct ',' :: post)
                = ([], post) := by
              rw [seg_consume_scalar (TokenTree.punct ',' :: post) rfl,
                take_while_consume_cons_neg _ _ _ (is_not_punct_self ',')]
            rw [arrElems_step_none ty (TokenTree.punct ',' :: post) (by simp)
              (by rw [hseg4]; exact json_impl_nil ty)]
            rfl
        · have hc' : c = TokenTree.punct ',' := eq_punct_of_is_not_punct_eq_false ',' c hc
          subst hc'
          have hassoc : (p0 :: pre2) ++ TokenTree.punct ',' :: TokenTree.punct ',' :: post
              = a ++ TokenTree.punct ','
                :: (r ++ TokenTree.punct ',' :: TokenTree.punct ',' :: post) := by
            rw [hpre]
            simp
          have h2 : take_while_consume (is_not_punct ',')
              (a ++ TokenTree.punct ','
                :: (r ++ TokenTree.punct ',' :: TokenTree.punct ',' :: post))
              = (a, r ++ TokenTree.punct ',' :: TokenTree.punct ',' :: post) :=
            take_while_consume_sep _ _ _ _ hall (is_not_punct_self ',')
          have hseg2 : seg_consume
              (a ++ TokenTree.punct ','
                :: (r ++ TokenTree.punct ',' :: TokenTree.punct ',' :: post))
              = (a, r ++ TokenTree.punct ',' :: TokenTree.punct ',' :: post) := by
            rw [← hassoc, seg_consume_scalar _ hlead, hassoc]
            exact h2
          have hlen' : r.length ≤ n := by
            have : (p0 :: pre2).length = a.length + 1 + r.length := by
              rw [hpre]
              simp
              omega
            simp only [List.length_cons] at hlen this
            omega
          rw [hassoc]
          cases hj : json_impl ty a with
          | none =>
            exact arrElems_step_none ty _ (by simp) (by rw [hseg2]; exact hj)
          | some v =>
            rw [arrElems_step_some ty _ v (by simp) (by rw [hseg2]; exact hj)]
            simp only [hseg2]
            rw [ih r post hlen']
            rfl

/-- C10 (implicit): an empty element segment between two consecutive top-level
entry separators of an array literal (as between the two commas of `[1,,2]`)
makes the whole expansion fail at compile time - the empty segment fails to
parse as an expression and is neither skipped nor compiled to anything. -/
theorem claim_c10_empty_segment_error (ty : SynType) (pre post : List TokenTree) :
    json_impl ty
        [.group .bracket (pre ++ TokenTree.punct ',' :: TokenTree.punct ',' :: post)]
      = Option.none := by
  simp only [json_impl]
  rw [arrElems_double_sep ty pre.length pre post le_rfl]
  rfl

end InlineJson
